import Mathlib

/-!
Verification development for the troian/semver version core and its CLI bump
logic.  Strings are embedded as `List Char`.  The version library itself
(version.go / collection.go) is not present under src/, so its operations are
modelled from the specification, with behaviour pinned by the tests of the
repository (src/version_test.go) wherever spec and tests disagree; the CLI
bump logic (src/unnamed/part_000, src/cmd/semver/main.go, src/cmd/main.go) is
embedded from its source.
-/

/-- Convenience abbreviation turning a string literal into the character-list
representation used throughout this development. -/
def cs (s : String) : List Char := s.toList

/-- Character class `[0-9]`. -/
def isDigitC (c : Char) : Bool := 48 ≤ c.toNat && c.toNat ≤ 57

/-- Character class `[0-9A-Za-z-]`, the semver identifier alphabet. -/
def isIdentC (c : Char) : Bool :=
  isDigitC c || (65 ≤ c.toNat && c.toNat ≤ 90) || (97 ≤ c.toNat && c.toNat ≤ 122) || c = '-'

/-- Digit character of a value below ten (value 48 + d as a code point). -/
def dChar (d : Nat) : Char := Char.ofNat (48 + d)

/-- Value of a digit character. -/
def dVal (c : Char) : Nat := c.toNat - 48

/-- Little-endian digit expansion of `n`, with explicit fuel so that the
definition is structurally recursive; `fuel ≥ n` yields all digits. -/
def toDigitsLE (fuel n : Nat) : List Nat :=
  match fuel with
  | 0 => []
  | f + 1 => if n = 0 then [] else (n % 10) :: toDigitsLE f (n / 10)

/-- Value of a little-endian digit list. -/
def ofDigitsLE : List Nat → Nat
  | [] => 0
  | d :: ds => d + 10 * ofDigitsLE ds

/-- Decimal rendering of a natural number, most significant digit first,
as produced by the decimal formatting the Go code uses. -/
def renderNum (n : Nat) : List Char :=
  if n = 0 then ['0'] else ((toDigitsLE n n).map dChar).reverse

/-- Numeric value of a digit string, most significant digit first, as produced
by decimal parsing in the Go code (modelled unboundedly over Nat). -/
def parseNum (l : List Char) : Nat := ofDigitsLE ((l.map dVal).reverse)

/-- Split at the first occurrence of `c`: `some (before, after)` when `c`
occurs, `none` otherwise; models Go strings.SplitN with limit 2. -/
def splitFirst (c : Char) : List Char → Option (List Char × List Char)
  | [] => none
  | x :: xs =>
    if x = c then some ([], xs)
    else (splitFirst c xs).map (fun p => (x :: p.1, p.2))

/-- Split at every occurrence of `sep`; models Go strings.Split.  The result
is always non-empty. -/
def splitAll (sep : Char) : List Char → List (List Char)
  | [] => [[]]
  | x :: xs =>
    match splitAll sep xs with
    | [] => [[]]
    | h :: t => if x = sep then [] :: h :: t else (x :: h) :: t

/-- Join with a separator character; models Go strings.Join. -/
def joinSep (sep : Char) : List (List Char) → List Char
  | [] => []
  | [p] => p
  | p :: q :: r => p ++ sep :: joinSep sep (q :: r)

/-- A numeric segment: non-empty, all digits, no leading zero unless the
segment is exactly `0`. -/
def validNum : List Char → Bool
  | [] => false
  | c :: rest => (c :: rest).all isDigitC && (decide (c ≠ '0') || rest.isEmpty)

/-- Error kinds of the version core (spec section 7). -/
inductive SemverErr where
  | invalidSemVer
  | invalidPrerel
  | segmentStartsZero
  | invalidMeta
deriving DecidableEq, Repr

/-- Modelled from the spec: the immutable Version Value record (spec section
3); the defining library file is absent from src/.  `pre` and `metadata` hold
the dot-separated identifiers in order, `original` the exact input text. -/
structure Version where
  major : Nat
  minor : Nat
  patch : Nat
  pre : List (List Char)
  metadata : List (List Char)
  original : List Char
deriving DecidableEq, Repr

/-- Modelled from the spec: validation of one pre-release identifier
(spec section 4.1); the defining library file is absent from src/.
An all-digit identifier of length above one must not start with `0`
(that case is surfaced as the distinct `segmentStartsZero` error, spec
section 7); otherwise all characters must lie in `[0-9A-Za-z-]`. -/
def validPreIdErr : List Char → Option SemverErr
  | [] => some .invalidPrerel
  | c :: rest =>
    if (c :: rest).all isDigitC then
      if c = '0' && !rest.isEmpty then some .segmentStartsZero else none
    else if (c :: rest).all isIdentC then none
    else some .invalidPrerel

/-- Modelled from the spec: `validatePrerelease` (spec sections 4.1 and 7);
the defining library file is absent from src/.  Splits on dots and reports
the first offending identifier. -/
def validatePre (t : List Char) : Option SemverErr :=
  (splitAll '.' t).findSome? validPreIdErr

/-- Modelled from the spec: validation of one metadata identifier (spec
section 4.1): non-empty, characters in `[0-9A-Za-z-]`, leading zeros
allowed. -/
def validMetaIdErr : List Char → Option SemverErr
  | [] => some .invalidMeta
  | c :: rest => if (c :: rest).all isIdentC then none else some .invalidMeta

/-- Modelled from the spec: `validateMetadata` (spec sections 4.1 and 7). -/
def validateMeta (t : List Char) : Option SemverErr :=
  (splitAll '.' t).findSome? validMetaIdErr

/-- Cut at the first occurrence of a separator: the part before it and,
when found, the part after it. -/
def cutAt (c : Char) (s : List Char) : List Char × Option (List Char) :=
  match splitFirst c s with
  | none => (s, none)
  | some (a, b) => (a, some b)

/-- The separator-and-tail text an optional cut result stands for. -/
def optCons (c : Char) : Option (List Char) → List Char
  | none => []
  | some b => c :: b

/-- Identifier sequence of an optional pre-release or metadata text. -/
def idsOf : Option (List Char) → List (List Char)
  | none => []
  | some p => splitAll '.' p

/-- Validity of an optional pre-release text. -/
def preOK : Option (List Char) → Bool
  | none => true
  | some p => (validatePre p).isNone

/-- Validity of an optional metadata text. -/
def metaOK : Option (List Char) → Bool
  | none => true
  | some m => (validateMeta m).isNone

/-- Modelled from the spec: the numeric segments of a version text
(spec section 4.1).  Exactly three dot-separated valid numbers; the loose
dialect (`allowShort`) also admits one or two, coercing the missing ones
to zero. -/
def parseMMP (allowShort : Bool) (mmp : List Char) : Option (Nat × Nat × Nat) :=
  match splitAll '.' mmp with
  | [a, b, c] =>
    if validNum a && validNum b && validNum c then
      some (parseNum a, parseNum b, parseNum c)
    else none
  | [a, b] =>
    if allowShort && validNum a && validNum b then
      some (parseNum a, parseNum b, 0)
    else none
  | [a] =>
    if allowShort && validNum a then some (parseNum a, 0, 0) else none
  | _ => none

/-- Modelled from the spec: the grammar-directed body of both parse dialects
(spec section 4.1); the defining library file is absent from src/.  The text
is split at the first `+` (metadata), the remainder at the first `-`
(pre-release), and the numeric part at every dot; `allowShort` admits one or
two numeric segments (loose dialect), which coerce to zero. -/
def parseBody (allowShort : Bool) (s : List Char) : Option Version :=
  match parseMMP allowShort (cutAt '-' (cutAt '+' s).1).1 with
  | none => none
  | some (ma, mi, pa) =>
    if preOK (cutAt '-' (cutAt '+' s).1).2 && metaOK (cutAt '+' s).2 then
      some { major := ma, minor := mi, patch := pa,
             pre := idsOf (cutAt '-' (cutAt '+' s).1).2,
             metadata := idsOf (cutAt '+' s).2,
             original := s }
    else none

/-- Modelled from the spec: `StrictNewVersion` (spec section 4.1): exactly
`major.minor.patch[-prerelease][+metadata]`, no leading `v`. -/
def strictNewVersion (s : List Char) : Option Version := parseBody false s

/-- Modelled from the spec: `NewVersion`, the loose dialect (spec section
4.1): optional single leading `v`/`V`, one to three numeric segments, same
identifier rules; the original text of the Value is the full input. -/
def newVersion (s : List Char) : Option Version :=
  let core := match s with
    | c :: rest => if c = 'v' || c = 'V' then rest else s
    | [] => s
  (parseBody true core).map (fun v => { v with original := s })

/-- Modelled from the spec: the canonical string form
`major.minor.patch[-prerelease][+metadata]` produced by `Version.String`. -/
def versionString (v : Version) : List Char :=
  renderNum v.major ++ '.' :: renderNum v.minor ++ '.' :: renderNum v.patch
    ++ (if v.pre.isEmpty then [] else '-' :: joinSep '.' v.pre)
    ++ (if v.metadata.isEmpty then [] else '+' :: joinSep '.' v.metadata)

/-- Three-way comparison of naturals with the Go convention -1, 0, 1. -/
def cmpNat (a b : Nat) : Int := if a < b then -1 else if b < a then 1 else 0

/-- Three-way comparison of characters by code point, as Go compares the
bytes of ASCII strings. -/
def cmpChars (c d : Char) : Int := cmpNat c.toNat d.toNat

/-- Lexicographic three-way comparison of lists from a comparison of
elements; a strict prefix is smaller. -/
def lexCmp (f : α → α → Int) : List α → List α → Int
  | [], [] => 0
  | [], _ :: _ => -1
  | _ :: _, [] => 1
  | a :: as, b :: bs => if f a b = 0 then lexCmp f as bs else f a b

/-- Modelled from the spec: tokenization of a pre-release identifier into
maximal runs of digits and maximal runs of non-digits, as exhibited by the
exported TokenizePrerel of the absent library file and pinned by
TestPrerelParser and TestGreaterThan in src/version_test.go (SNAPSHOT100
compares above SNAPSHOT99, so digit runs compare numerically). -/
def tokenizeRuns : List Char → List (List Char)
  | [] => []
  | c :: rest =>
    match tokenizeRuns rest with
    | [] => [[c]]
    | [] :: t => [c] :: [] :: t
    | (d :: ds) :: t =>
      if isDigitC c = isDigitC d then (c :: d :: ds) :: t
      else [c] :: (d :: ds) :: t

/-- All pre-release tokens of a version, dot boundaries dropped. -/
def preTokens (v : Version) : List (List Char) := v.pre.flatMap tokenizeRuns

/-- A token is numeric when non-empty and all digits (Go: ParseUint
succeeds; modelled unboundedly). -/
def isNumTok (l : List Char) : Bool := !l.isEmpty && l.all isDigitC

/-- Modelled from the spec: comparison of two pre-release tokens (spec
section 4.2): numeric tokens compare numerically, a numeric token is below
an alphanumeric one, alphanumeric tokens compare by code points. -/
def cmpTok (x y : List Char) : Int :=
  if isNumTok x then
    if isNumTok y then cmpNat (parseNum x) (parseNum y) else -1
  else
    if isNumTok y then 1 else lexCmp cmpChars x y

/-- Sequencing of comparisons: the second one decides only on a tie. -/
def chainCmp (f g : α → α → Int) (a b : α) : Int :=
  if f a b = 0 then g a b else f a b

/-- Modelled from the spec: the pre-release step of Compare (spec section
4.2 rules 3 and 4): a version without pre-release is above one with, and
two pre-releases compare token by token. -/
def cmpPreVer (v o : Version) : Int :=
  if v.pre.isEmpty then (if o.pre.isEmpty then 0 else 1)
  else if o.pre.isEmpty then -1
  else lexCmp cmpTok (preTokens v) (preTokens o)

/-- Modelled from the spec: `Version.Compare` (spec section 4.2): major,
minor, patch numerically in order, then the pre-release rule; metadata is
never consulted; the defining library file is absent from src/. -/
def Version.compare (v o : Version) : Int :=
  chainCmp (fun a b => cmpNat a.major b.major)
    (chainCmp (fun a b => cmpNat a.minor b.minor)
      (chainCmp (fun a b => cmpNat a.patch b.patch) cmpPreVer)) v o

/-- Modelled from the spec: `LessThan` delegates to Compare. -/
def lessThan (v o : Version) : Prop := v.compare o < 0

/-- Modelled from the spec: `GreaterThan` delegates to Compare. -/
def greaterThan (v o : Version) : Prop := v.compare o > 0

/-- Modelled from the spec: `Equal` delegates to Compare (metadata is
excluded from equality by design). -/
def equalCmp (v o : Version) : Prop := v.compare o = 0

instance (v o : Version) : Decidable (lessThan v o) := by
  unfold lessThan; infer_instance

instance (v o : Version) : Decidable (greaterThan v o) := by
  unfold greaterThan; infer_instance

instance (v o : Version) : Decidable (equalCmp v o) := by
  unfold equalCmp; infer_instance

/-- Comparison on two parsed inputs, convenient for concrete checks. -/
def compareParsed (a b : List Char) : Option Int :=
  match newVersion a, newVersion b with
  | some v, some o => some (v.compare o)
  | _, _ => none

/-- Modelled from the spec: the retained `v` marker of the original text
(spec section 3, had_v_prefix); the defining library file is absent from
src/.  Yields the leading `v`/`V` of the original text when present. -/
def originalVPfx (v : Version) : List Char :=
  match v.original with
  | [] => []
  | c :: _ => if c = 'v' || c = 'V' then [c] else []

/-- Modelled from the spec: `IncMajor` (spec section 4.3); the defining
library file is absent from src/.  Behaviour of the original text is pinned
by TestInc in src/version_test.go: the result keeps the `v` marker and
otherwise carries its canonical form as original text. -/
def Version.incMajor (v : Version) : Version :=
  let w : Version := { v with major := v.major + 1, minor := 0, patch := 0,
                              pre := [], metadata := [] }
  { w with original := originalVPfx v ++ versionString w }

/-- Modelled from the spec: `IncMinor` (spec section 4.3), original text
pinned by TestInc as for `incMajor`. -/
def Version.incMinor (v : Version) : Version :=
  let w : Version := { v with minor := v.minor + 1, patch := 0,
                              pre := [], metadata := [] }
  { w with original := originalVPfx v ++ versionString w }

/-- Modelled from the spec: `IncPatch` (spec section 4.3); the defining
library file is absent from src/.  Where the spec and the tests of the
repository disagree the tests win: TestInc in src/version_test.go fixes
that a version carrying a pre-release only drops pre-release and metadata
(1.2.3-beta+meta becomes 1.2.3), the patch number rises only when no
pre-release is present, and the original text keeps the `v` marker. -/
def Version.incPatch (v : Version) : Version :=
  let w : Version :=
    if v.pre.isEmpty then
      { v with patch := v.patch + 1, pre := [], metadata := [] }
    else
      { v with pre := [], metadata := [] }
  { w with original := originalVPfx v ++ versionString w }

/-- Modelled from the spec: `SetPrerelease` (spec section 4.3); the defining
library file is absent from src/.  An empty text clears the pre-release (the
release operation of the CLI relies on this); otherwise the text is
validated and, on failure, the receiver is returned unchanged together with
the error; on success the identifiers are stored and the original text is
refreshed while keeping the `v` marker. -/
def Version.setPrerelease (v : Version) (t : List Char) :
    Version × Option SemverErr :=
  if t.isEmpty then
    let w : Version := { v with pre := [] }
    ({ w with original := originalVPfx v ++ versionString w }, none)
  else
    match validatePre t with
    | some e => (v, some e)
    | none =>
      let w : Version := { v with pre := splitAll '.' t }
      ({ w with original := originalVPfx v ++ versionString w }, none)

/-- Modelled from the spec: `SetMetadata` (spec section 4.3), the metadata
analogue of `setPrerelease`. -/
def Version.setMetadata (v : Version) (t : List Char) :
    Version × Option SemverErr :=
  if t.isEmpty then
    let w : Version := { v with metadata := [] }
    ({ w with original := originalVPfx v ++ versionString w }, none)
  else
    match validateMeta t with
    | some e => (v, some e)
    | none =>
      let w : Version := { v with metadata := splitAll '.' t }
      ({ w with original := originalVPfx v ++ versionString w }, none)

/-- The joined pre-release text of a version, as returned by the
`Prerelease` accessor the CLI feeds to its extraction regexp. -/
def prereleaseText (v : Version) : List Char := joinSep '.' v.pre

/-- The prefix and counter extraction of the CLI bump command: the result of
`extractRegexp.FindAllStringSubmatch` on a pre-release text, as read by
bumpCmd (src/unnamed/part_000, src/cmd/semver/main.go).  On the identifier
alphabet the anchored pattern `([.0-9A-Za-z-]*[.A-Za-z-])*([0-9]+)` matches
exactly when the text holds a digit; its second group is then the last
maximal digit run, its first group everything before that run (one greedy
iteration), and anything after the run is outside the match.  With no match
both captures are read back as empty. -/
def extract (s : List Char) : List Char × List Char :=
  let r := s.reverse
  let afterTail := r.dropWhile (fun c => !isDigitC c)
  if afterTail.isEmpty then ([], [])
  else ((afterTail.dropWhile isDigitC).reverse, (afterTail.takeWhile isDigitC).reverse)

/-- The new pre-release text computed by bumpCmd when no new prefix is
supplied (continue): increment the extracted counter, or append `0` to the
extracted prefix when no counter was found (src/unnamed/part_000 lines
286-293). -/
def bumpContinueNewPre (s : List Char) : List Char :=
  let (cur, num) := extract s
  if !num.isEmpty then cur ++ renderNum (parseNum num + 1) else cur ++ ['0']

/-- The new pre-release text computed by bumpCmd when a prefix is supplied
(src/unnamed/part_000 lines 274-285): a differing prefix restarts at `0`;
an equal prefix increments the counter when one was extracted, and
otherwise leaves the new text empty, since the inner else branch that
would append `0` sits under the repeated counter test and is unreachable. -/
def bumpWithPfxNewPre (s pfx : List Char) : List Char :=
  let (cur, num) := extract s
  if cur ≠ pfx then pfx ++ ['0']
  else if !num.isEmpty then cur ++ renderNum (parseNum num + 1)
  else []

/-- The continue path of `bump prerel` end to end: compute the new
pre-release text from the current one and apply it via `setPrerelease`. -/
def bumpPrerelContinue (v : Version) : Version × Option SemverErr :=
  v.setPrerelease (bumpContinueNewPre (prereleaseText v))

/-- The supplied-prefix path of `bump prerel` end to end. -/
def bumpPrerelWithPfx (v : Version) (pfx : List Char) :
    Version × Option SemverErr :=
  v.setPrerelease (bumpWithPfxNewPre (prereleaseText v) pfx)

/-- The laws making a three-way Int comparison a total preorder comparison:
values in -1, 0, 1, antisymmetry, and the four transitivity shapes. -/
structure CmpLaws (f : α → α → Int) : Prop where
  total3 : ∀ a b, f a b = -1 ∨ f a b = 0 ∨ f a b = 1
  sym : ∀ a b, f b a = - f a b
  ltTrans : ∀ a b c, f a b = -1 → f b c = -1 → f a c = -1
  ltEq : ∀ a b c, f a b = -1 → f b c = 0 → f a c = -1
  eqLt : ∀ a b c, f a b = 0 → f b c = -1 → f a c = -1
  eqTrans : ∀ a b c, f a b = 0 → f b c = 0 → f a c = 0

/-- The sort key of a pre-release token: numeric tokens become numbers,
the rest stay text. -/
def tokKey (x : List Char) : Sum Nat (List Char) :=
  if isNumTok x then .inl (parseNum x) else .inr x

/-- Comparison of token keys: numbers below text, numbers numerically,
text by code points. -/
def cmpKey : Sum Nat (List Char) → Sum Nat (List Char) → Int
  | .inl a, .inl b => cmpNat a b
  | .inl _, .inr _ => -1
  | .inr _, .inl _ => 1
  | .inr a, .inr b => lexCmp cmpChars a b

/-- The sort key of the pre-release step: `none` for no pre-release (which
sorts on top), otherwise the token list. -/
def preKey (v : Version) : Option (List (List Char)) :=
  if v.pre.isEmpty then none else some (preTokens v)

/-- Comparison of pre-release keys. -/
def cmpPreKey : Option (List (List Char)) → Option (List (List Char)) → Int
  | none, none => 0
  | none, some _ => 1
  | some _, none => -1
  | some a, some b => lexCmp cmpTok a b

theorem cmpNat_laws : CmpLaws cmpNat := by
  constructor
  · intro a b; unfold cmpNat; split_ifs <;> omega
  · intro a b; unfold cmpNat; split_ifs <;> omega
  · intro a b c h1 h2; unfold cmpNat at h1 h2 ⊢; split_ifs at h1 h2 ⊢ <;> omega
  · intro a b c h1 h2; unfold cmpNat at h1 h2 ⊢; split_ifs at h1 h2 ⊢ <;> omega
  · intro a b c h1 h2; unfold cmpNat at h1 h2 ⊢; split_ifs at h1 h2 ⊢ <;> omega
  · intro a b c h1 h2; unfold cmpNat at h1 h2 ⊢; split_ifs at h1 h2 ⊢ <;> omega

theorem cmpLaws_comap {f : α → α → Int} (hf : CmpLaws f) (g : β → α) :
    CmpLaws (fun x y => f (g x) (g y)) := by
  constructor
  · exact fun a b => hf.total3 (g a) (g b)
  · exact fun a b => hf.sym (g a) (g b)
  · exact fun a b c => hf.ltTrans (g a) (g b) (g c)
  · exact fun a b c => hf.ltEq (g a) (g b) (g c)
  · exact fun a b c => hf.eqLt (g a) (g b) (g c)
  · exact fun a b c => hf.eqTrans (g a) (g b) (g c)

theorem cmpChars_laws : CmpLaws cmpChars := cmpLaws_comap cmpNat_laws Char.toNat

theorem lexCmp_total3 {f : α → α → Int} (hf : CmpLaws f) :
    ∀ as bs : List α, lexCmp f as bs = -1 ∨ lexCmp f as bs = 0 ∨ lexCmp f as bs = 1 := by
  intro as
  induction as with
  | nil => intro bs; cases bs <;> simp [lexCmp]
  | cons a as ih =>
    intro bs
    cases bs with
    | nil => simp [lexCmp]
    | cons b bs =>
      simp only [lexCmp]
      by_cases h : f a b = 0
      · simpa [h] using ih bs
      · simpa [h] using hf.total3 a b

theorem lexCmp_sym {f : α → α → Int} (hf : CmpLaws f) :
    ∀ as bs : List α, lexCmp f bs as = - lexCmp f as bs := by
  intro as
  induction as with
  | nil => intro bs; cases bs <;> simp [lexCmp]
  | cons a as ih =>
    intro bs
    cases bs with
    | nil => simp [lexCmp]
    | cons b bs =>
      simp only [lexCmp]
      by_cases h : f a b = 0
      · have h2 : f b a = 0 := by rw [hf.sym]; omega
        simpa [h, h2] using ih bs
      · have h2 : f b a = - f a b := hf.sym a b
        have h3 : ¬ f b a = 0 := by omega
        simp [h, h3, h2]

theorem lexCmp_ltTrans {f : α → α → Int} (hf : CmpLaws f) :
    ∀ as bs cs : List α, lexCmp f as bs = -1 → lexCmp f bs cs = -1 →
      lexCmp f as cs = -1 := by
  intro as
  induction as with
  | nil =>
    intro bs cs h1 h2
    cases bs with
    | nil => simp [lexCmp] at h1
    | cons b bs =>
      cases cs with
      | nil => simp [lexCmp] at h2
      | cons c cs => simp [lexCmp]
  | cons a as ih =>
    intro bs cs h1 h2
    cases bs with
    | nil => simp [lexCmp] at h1
    | cons b bs =>
      cases cs with
      | nil => simp [lexCmp] at h2
      | cons c cs =>
        simp only [lexCmp] at h1 h2 ⊢
        by_cases hab : f a b = 0
        · by_cases hbc : f b c = 0
          · have hac : f a c = 0 := hf.eqTrans a b c hab hbc
            simp only [hab, hbc, if_pos rfl, hac] at h1 h2 ⊢
            exact ih bs cs h1 h2
          · rw [if_neg hbc] at h2
            have hac : f a c = -1 := hf.eqLt a b c hab h2
            simp [hac]
        · rw [if_neg hab] at h1
          by_cases hbc : f b c = 0
          · have hac : f a c = -1 := hf.ltEq a b c h1 hbc
            simp [hac]
          · rw [if_neg hbc] at h2
            have hac : f a c = -1 := hf.ltTrans a b c h1 h2
            simp [hac]

theorem lexCmp_ltEq {f : α → α → Int} (hf : CmpLaws f) :
    ∀ as bs cs : List α, lexCmp f as bs = -1 → lexCmp f bs cs = 0 →
      lexCmp f as cs = -1 := by
  intro as
  induction as with
  | nil =>
    intro bs cs h1 h2
    cases bs with
    | nil => simp [lexCmp] at h1
    | cons b bs =>
      cases cs with
      | nil => simp [lexCmp] at h2
      | cons c cs => simp [lexCmp]
  | cons a as ih =>
    intro bs cs h1 h2
    cases bs with
    | nil => simp [lexCmp] at h1
    | cons b bs =>
      cases cs with
      | nil => simp [lexCmp] at h2
      | cons c cs =>
        simp only [lexCmp] at h1 h2 ⊢
        by_cases hbc : f b c = 0
        · by_cases hab : f a b = 0
          · have hac : f a c = 0 := hf.eqTrans a b c hab hbc
            simp only [hab, hbc, if_pos rfl, hac] at h1 h2 ⊢
            exact ih bs cs h1 h2
          · rw [if_neg hab] at h1
            have hac : f a c = -1 := hf.ltEq a b c h1 hbc
            simp [hac]
        · rw [if_neg hbc] at h2
          omega

theorem lexCmp_eqLt {f : α → α → Int} (hf : CmpLaws f) :
    ∀ as bs cs : List α, lexCmp f as bs = 0 → lexCmp f bs cs = -1 →
      lexCmp f as cs = -1 := by
  intro as
  induction as with
  | nil =>
    intro bs cs h1 h2
    cases bs with
    | nil =>
      cases cs with
      | nil => simp [lexCmp] at h2
      | cons c cs => simp [lexCmp]
    | cons b bs => simp [lexCmp] at h1
  | cons a as ih =>
    intro bs cs h1 h2
    cases bs with
    | nil => simp [lexCmp] at h1
    | cons b bs =>
      cases cs with
      | nil => simp [lexCmp] at h2
      | cons c cs =>
        simp only [lexCmp] at h1 h2 ⊢
        by_cases hab : f a b = 0
        · by_cases hbc : f b c = 0
          · have hac : f a c = 0 := hf.eqTrans a b c hab hbc
            simp only [hab, hbc, if_pos rfl, hac] at h1 h2 ⊢
            exact ih bs cs h1 h2
          · rw [if_neg hbc] at h2
            have hac : f a c = -1 := hf.eqLt a b c hab h2
            simp [hac]
        · rw [if_neg hab] at h1
          omega

theorem lexCmp_eqTrans {f : α → α → Int} (hf : CmpLaws f) :
    ∀ as bs cs : List α, lexCmp f as bs = 0 → lexCmp f bs cs = 0 →
      lexCmp f as cs = 0 := by
  intro as
  induction as with
  | nil =>
    intro bs cs h1 h2
    cases bs with
    | nil => exact h2
    | cons b bs => simp [lexCmp] at h1
  | cons a as ih =>
    intro bs cs h1 h2
    cases bs with
    | nil => simp [lexCmp] at h1
    | cons b bs =>
      cases cs with
      | nil => simp [lexCmp] at h2
      | cons c cs =>
        simp only [lexCmp] at h1 h2 ⊢
        by_cases hab : f a b = 0
        · by_cases hbc : f b c = 0
          · have hac : f a c = 0 := hf.eqTrans a b c hab hbc
            simp only [hab, hbc, if_pos rfl, hac] at h1 h2 ⊢
            exact ih bs cs h1 h2
          · rw [if_neg hbc] at h2
            omega
        · rw [if_neg hab] at h1
          omega

theorem lexCmp_laws {f : α → α → Int} (hf : CmpLaws f) : CmpLaws (lexCmp f) :=
  ⟨lexCmp_total3 hf, lexCmp_sym hf, lexCmp_ltTrans hf, lexCmp_ltEq hf,
   lexCmp_eqLt hf, lexCmp_eqTrans hf⟩

theorem chainCmp_laws {f g : α → α → Int} (hf : CmpLaws f) (hg : CmpLaws g) :
    CmpLaws (chainCmp f g) := by
  have key : ∀ a b, chainCmp f g a b = if f a b = 0 then g a b else f a b :=
    fun a b => rfl
  constructor
  · intro a b
    rw [key]
    by_cases h : f a b = 0
    · simpa [h] using hg.total3 a b
    · simpa [h] using hf.total3 a b
  · intro a b
    rw [key, key]
    by_cases h : f a b = 0
    · have h2 : f b a = 0 := by rw [hf.sym]; omega
      rw [if_pos h2, if_pos h]
      exact hg.sym a b
    · have h3 : ¬ f b a = 0 := by rw [hf.sym]; omega
      rw [if_neg h3, if_neg h]
      exact hf.sym a b
  · intro a b c h1 h2
    rw [key] at h1 h2 ⊢
    by_cases hab : f a b = 0
    · by_cases hbc : f b c = 0
      · have hac : f a c = 0 := hf.eqTrans a b c hab hbc
        rw [if_pos hab] at h1; rw [if_pos hbc] at h2; rw [if_pos hac]
        exact hg.ltTrans a b c h1 h2
      · rw [if_neg hbc] at h2
        have hac : f a c = -1 := hf.eqLt a b c hab h2
        simp [hac]
    · rw [if_neg hab] at h1
      by_cases hbc : f b c = 0
      · have hac : f a c = -1 := hf.ltEq a b c h1 hbc
        simp [hac]
      · rw [if_neg hbc] at h2
        have hac : f a c = -1 := hf.ltTrans a b c h1 h2
        simp [hac]
  · intro a b c h1 h2
    rw [key] at h1 h2 ⊢
    by_cases hbc : f b c = 0
    · by_cases hab : f a b = 0
      · have hac : f a c = 0 := hf.eqTrans a b c hab hbc
        rw [if_pos hab] at h1; rw [if_pos hbc] at h2; rw [if_pos hac]
        exact hg.ltEq a b c h1 h2
      · rw [if_neg hab] at h1
        have hac : f a c = -1 := hf.ltEq a b c h1 hbc
        simp [hac]
    · rw [if_neg hbc] at h2
      omega
  · intro a b c h1 h2
    rw [key] at h1 h2 ⊢
    by_cases hab : f a b = 0
    · by_cases hbc : f b c = 0
      · have hac : f a c = 0 := hf.eqTrans a b c hab hbc
        rw [if_pos hab] at h1; rw [if_pos hbc] at h2; rw [if_pos hac]
        exact hg.eqLt a b c h1 h2
      · rw [if_neg hbc] at h2
        have hac : f a c = -1 := hf.eqLt a b c hab h2
        simp [hac]
    · rw [if_neg hab] at h1
      omega
  · intro a b c h1 h2
    rw [key] at h1 h2 ⊢
    by_cases hab : f a b = 0
    · by_cases hbc : f b c = 0
      · have hac : f a c = 0 := hf.eqTrans a b c hab hbc
        rw [if_pos hab] at h1; rw [if_pos hbc] at h2; rw [if_pos hac]
        exact hg.eqTrans a b c h1 h2
      · rw [if_neg hbc] at h2
        omega
    · rw [if_neg hab] at h1
      omega

theorem cmpTok_eq_key : ∀ x y, cmpTok x y = cmpKey (tokKey x) (tokKey y) := by
  intro x y
  unfold cmpTok tokKey
  split_ifs <;> rfl

theorem cmpKey_laws : CmpLaws cmpKey := by
  have hn := cmpNat_laws
  have hl := lexCmp_laws cmpChars_laws
  constructor
  · intro a b
    cases a <;> cases b <;> simp only [cmpKey] <;>
      first | exact hn.total3 _ _ | exact hl.total3 _ _ | decide
  · intro a b
    cases a <;> cases b <;> simp only [cmpKey] <;>
      first | exact hn.sym _ _ | exact hl.sym _ _ | decide
  · intro a b c h1 h2
    cases a <;> cases b <;> cases c <;> simp only [cmpKey] at h1 h2 ⊢ <;>
      first
        | rfl
        | exact hn.ltTrans _ _ _ h1 h2
        | exact hl.ltTrans _ _ _ h1 h2
        | omega
  · intro a b c h1 h2
    cases a <;> cases b <;> cases c <;> simp only [cmpKey] at h1 h2 ⊢ <;>
      first
        | rfl
        | exact hn.ltEq _ _ _ h1 h2
        | exact hl.ltEq _ _ _ h1 h2
        | omega
  · intro a b c h1 h2
    cases a <;> cases b <;> cases c <;> simp only [cmpKey] at h1 h2 ⊢ <;>
      first
        | rfl
        | exact hn.eqLt _ _ _ h1 h2
        | exact hl.eqLt _ _ _ h1 h2
        | omega
  · intro a b c h1 h2
    cases a <;> cases b <;> cases c <;> simp only [cmpKey] at h1 h2 ⊢ <;>
      first
        | rfl
        | exact hn.eqTrans _ _ _ h1 h2
        | exact hl.eqTrans _ _ _ h1 h2
        | omega

theorem cmpTok_laws : CmpLaws cmpTok := by
  have h : cmpTok = fun x y => cmpKey (tokKey x) (tokKey y) := by
    funext x y
    exact cmpTok_eq_key x y
  rw [h]
  exact cmpLaws_comap cmpKey_laws tokKey

theorem cmpPreVer_eq_key : ∀ v o, cmpPreVer v o = cmpPreKey (preKey v) (preKey o) := by
  intro v o
  unfold cmpPreVer preKey
  split_ifs <;> rfl

theorem cmpPreKey_laws : CmpLaws cmpPreKey := by
  have hl := lexCmp_laws cmpTok_laws
  constructor
  · intro a b
    cases a <;> cases b <;> simp only [cmpPreKey] <;>
      first | exact hl.total3 _ _ | decide
  · intro a b
    cases a <;> cases b <;> simp only [cmpPreKey] <;>
      first | exact hl.sym _ _ | decide
  · intro a b c h1 h2
    cases a <;> cases b <;> cases c <;> simp only [cmpPreKey] at h1 h2 ⊢ <;>
      first | rfl | exact hl.ltTrans _ _ _ h1 h2 | omega
  · intro a b c h1 h2
    cases a <;> cases b <;> cases c <;> simp only [cmpPreKey] at h1 h2 ⊢ <;>
      first | rfl | exact hl.ltEq _ _ _ h1 h2 | omega
  · intro a b c h1 h2
    cases a <;> cases b <;> cases c <;> simp only [cmpPreKey] at h1 h2 ⊢ <;>
      first | rfl | exact hl.eqLt _ _ _ h1 h2 | omega
  · intro a b c h1 h2
    cases a <;> cases b <;> cases c <;> simp only [cmpPreKey] at h1 h2 ⊢ <;>
      first | rfl | exact hl.eqTrans _ _ _ h1 h2 | omega

theorem cmpPreVer_laws : CmpLaws cmpPreVer := by
  have h : cmpPreVer = fun v o => cmpPreKey (preKey v) (preKey o) := by
    funext v o
    exact cmpPreVer_eq_key v o
  rw [h]
  exact cmpLaws_comap cmpPreKey_laws preKey

theorem compare_laws : CmpLaws Version.compare := by
  unfold Version.compare
  exact chainCmp_laws (cmpLaws_comap cmpNat_laws Version.major)
    (chainCmp_laws (cmpLaws_comap cmpNat_laws Version.minor)
      (chainCmp_laws (cmpLaws_comap cmpNat_laws Version.patch) cmpPreVer_laws))

/-- C1: for all versions a, b, c (in particular all values either parse
dialect produces), comparison through `Version.compare` is a total order:
exactly one of a below b, a equal b, a above b holds, above is the mirror
of below, and below is transitive. -/
theorem compare_total_order (a b c : Version) :
    ((lessThan a b ∧ ¬ equalCmp a b ∧ ¬ greaterThan a b) ∨
     (¬ lessThan a b ∧ equalCmp a b ∧ ¬ greaterThan a b) ∨
     (¬ lessThan a b ∧ ¬ equalCmp a b ∧ greaterThan a b)) ∧
    (greaterThan a b ↔ lessThan b a) ∧
    (lessThan a b → lessThan b c → lessThan a c) := by
  have hl := compare_laws
  unfold lessThan equalCmp greaterThan
  refine ⟨?_, ?_, ?_⟩
  · rcases hl.total3 a b with h | h | h
    · left; omega
    · right; left; omega
    · right; right; omega
  · have hs := hl.sym a b
    omega
  · intro h1 h2
    have e1 : a.compare b = -1 := by rcases hl.total3 a b with h | h | h <;> omega
    have e2 : b.compare c = -1 := by rcases hl.total3 b c with h | h | h <;> omega
    have := hl.ltTrans a b c e1 e2
    omega

theorem toDigitsLE_zero (f : Nat) : toDigitsLE f 0 = [] := by
  cases f <;> simp [toDigitsLE]

theorem ofDigits_toDigits (fuel : Nat) : ∀ n : Nat, n ≤ fuel →
    ofDigitsLE (toDigitsLE fuel n) = n := by
  induction fuel with
  | zero =>
    intro n h
    have : n = 0 := by omega
    subst this
    simp [toDigitsLE, ofDigitsLE]
  | succ f ih =>
    intro n h
    by_cases hn : n = 0
    · subst hn
      simp [toDigitsLE, ofDigitsLE]
    · have hlt : n / 10 < n := Nat.div_lt_self (Nat.pos_of_ne_zero hn) (by omega)
      simp only [toDigitsLE, if_neg hn, ofDigitsLE]
      rw [ih (n / 10) (by omega)]
      omega

theorem toDigitsLE_lt (fuel : Nat) : ∀ n : Nat, ∀ d ∈ toDigitsLE fuel n, d < 10 := by
  induction fuel with
  | zero => intro n; simp [toDigitsLE]
  | succ f ih =>
    intro n d hd
    by_cases hn : n = 0
    · simp [toDigitsLE, hn] at hd
    · simp only [toDigitsLE, if_neg hn, List.mem_cons] at hd
      rcases hd with rfl | hd
      · omega
      · exact ih _ _ hd

theorem toDigitsLE_ne_nil (fuel : Nat) : ∀ n : Nat, 0 < n → n ≤ fuel →
    toDigitsLE fuel n ≠ [] := by
  intro n hn hf
  obtain ⟨f, rfl⟩ : ∃ f, fuel = f + 1 := ⟨fuel - 1, by omega⟩
  simp [toDigitsLE, Nat.pos_iff_ne_zero.mp hn]

theorem toDigitsLE_getLast (fuel : Nat) : ∀ n : Nat, 0 < n → n ≤ fuel →
    ∀ d, (toDigitsLE fuel n).getLast? = some d → d ≠ 0 := by
  induction fuel with
  | zero => intro n hn hf; omega
  | succ f ih =>
    intro n hn hf d hd
    have hn0 : n ≠ 0 := by omega
    simp only [toDigitsLE, if_neg hn0] at hd
    by_cases hq : n / 10 = 0
    · rw [hq, toDigitsLE_zero] at hd
      simp only [List.getLast?_singleton, Option.some_inj] at hd
      have : n < 10 := by omega
      omega
    · have hne : toDigitsLE f (n / 10) ≠ [] :=
        toDigitsLE_ne_nil f (n / 10) (by omega) (by omega)
      obtain ⟨e, es, heq⟩ := List.exists_cons_of_ne_nil hne
      rw [heq, List.getLast?_cons_cons] at hd
      rw [← heq] at hd
      exact ih (n / 10) (by omega) (by omega) d hd

theorem ofDigitsLE_pos (L : List Nat) (hne : L ≠ [])
    (hlast : ∀ d, L.getLast? = some d → d ≠ 0) : 0 < ofDigitsLE L := by
  induction L with
  | nil => simp at hne
  | cons d ds ih =>
    cases ds with
    | nil =>
      have := hlast d (by simp)
      simp only [ofDigitsLE]
      omega
    | cons e es =>
      have h2 : ∀ x, (e :: es).getLast? = some x → x ≠ 0 := by
        intro x hx
        exact hlast x (by rw [List.getLast?_cons_cons]; exact hx)
      have := ih (by simp) h2
      have hval : ofDigitsLE (d :: e :: es) = d + 10 * ofDigitsLE (e :: es) := rfl
      omega

theorem toDigitsLE_step (f d m : Nat) (hd : d < 10) (hnz : d + 10 * m ≠ 0) :
    toDigitsLE (f + 1) (d + 10 * m) = d :: toDigitsLE f m := by
  simp only [toDigitsLE, if_neg hnz]
  congr 1
  · omega
  · congr 1
    omega

theorem toDigits_ofDigits (L : List Nat) (hd10 : ∀ d ∈ L, d < 10) (hne : L ≠ [])
    (hlast : ∀ d, L.getLast? = some d → d ≠ 0) :
    ∀ fuel, ofDigitsLE L ≤ fuel → toDigitsLE fuel (ofDigitsLE L) = L := by
  induction L with
  | nil => simp at hne
  | cons d ds ih =>
    intro fuel hfuel
    have hdlt : d < 10 := hd10 d (by simp)
    have hpos : 0 < ofDigitsLE (d :: ds) := ofDigitsLE_pos _ (by simp) hlast
    obtain ⟨f, rfl⟩ : ∃ f, fuel = f + 1 := ⟨fuel - 1, by omega⟩
    have hval : ofDigitsLE (d :: ds) = d + 10 * ofDigitsLE ds := rfl
    rw [hval, toDigitsLE_step f d (ofDigitsLE ds) hdlt (by omega)]
    cases ds with
    | nil => simp [ofDigitsLE, toDigitsLE_zero]
    | cons e es =>
      have h2 : ∀ x, (e :: es).getLast? = some x → x ≠ 0 := by
        intro x hx
        exact hlast x (by rw [List.getLast?_cons_cons]; exact hx)
      have hrec := ih (fun x hx => hd10 x (by simp [hx])) (by simp) h2
      have hm : 0 < ofDigitsLE (e :: es) := ofDigitsLE_pos _ (by simp) h2
      rw [hrec f (by rw [hval] at hfuel; omega)]

theorem char_toNat_inj {c d : Char} (h : c.toNat = d.toNat) : c = d :=
  Char.ext (UInt32.ext h)

theorem dVal_lt (c : Char) (h : isDigitC c = true) : dVal c < 10 := by
  unfold isDigitC at h
  simp only [Bool.and_eq_true, decide_eq_true_eq] at h
  unfold dVal
  omega

theorem dChar_dVal (c : Char) (h : isDigitC c = true) : dChar (dVal c) = c := by
  unfold isDigitC at h
  simp only [Bool.and_eq_true, decide_eq_true_eq] at h
  unfold dChar dVal
  rw [(by omega : 48 + (c.toNat - 48) = c.toNat)]
  exact Char.ofNat_toNat c

theorem dVal_dChar (d : Nat) (h : d < 10) : dVal (dChar d) = d := by
  interval_cases d <;> decide

theorem dChar_isDigit (d : Nat) (h : d < 10) : isDigitC (dChar d) = true := by
  interval_cases d <;> decide

theorem dChar_ne_zero (d : Nat) (h : d < 10) (h0 : d ≠ 0) : dChar d ≠ '0' := by
  interval_cases d
  · exact absurd rfl h0
  all_goals decide

theorem dVal_ne_zero (c : Char) (h : isDigitC c = true) (h0 : c ≠ '0') :
    dVal c ≠ 0 := by
  intro hv
  apply h0
  have := dChar_dVal c h
  rw [hv] at this
  rw [← this]
  decide

/-- Round trip of decimal parsing then rendering on a valid numeric
segment. -/
theorem renderNum_parseNum (l : List Char) (h : validNum l = true) :
    renderNum (parseNum l) = l := by
  cases l with
  | nil => simp [validNum] at h
  | cons c rest =>
    simp only [validNum, Bool.and_eq_true, Bool.or_eq_true, decide_eq_true_eq,
      List.all_eq_true] at h
    obtain ⟨hall, hzero⟩ := h
    by_cases hc : c = '0'
    · have hrest : rest = [] := by
        rcases hzero with h | h
        · exact absurd hc h
        · simpa using h
      subst hc; subst hrest
      decide
    · set L : List Nat := (((c :: rest).map dVal).reverse) with hL
      have hd10 : ∀ d ∈ L, d < 10 := by
        intro d hd
        rw [hL, List.mem_reverse, List.mem_map] at hd
        obtain ⟨x, hx, rfl⟩ := hd
        exact dVal_lt x (hall x hx)
      have hne : L ≠ [] := by simp [hL]
      have hlast : ∀ d, L.getLast? = some d → d ≠ 0 := by
        intro d hd
        rw [hL, List.getLast?_reverse] at hd
        simp only [List.head?_map, List.head?_cons, Option.map_some] at hd
        have : d = dVal c := by injection hd; omega
        subst this
        exact dVal_ne_zero c (hall c (by simp)) hc
      have hparse : parseNum (c :: rest) = ofDigitsLE L := rfl
      have hpos : 0 < ofDigitsLE L := ofDigitsLE_pos L hne hlast
      rw [hparse]
      unfold renderNum
      rw [if_neg (by omega)]
      rw [toDigits_ofDigits L hd10 hne hlast (ofDigitsLE L) (le_refl _)]
      rw [hL, List.map_reverse, List.reverse_reverse, List.map_map]
      have hcong : ∀ x ∈ c :: rest, (dChar ∘ dVal) x = id x := by
        intro x hx
        simp only [Function.comp_apply, id_eq]
        exact dChar_dVal x (hall x hx)
      rw [List.map_congr_left hcong, List.map_id]

/-- Rendering then parsing is the identity on naturals. -/
theorem parseNum_renderNum (n : Nat) : parseNum (renderNum n) = n := by
  by_cases hn : n = 0
  · subst hn; decide
  · unfold renderNum parseNum
    rw [if_neg hn]
    rw [List.map_reverse, List.reverse_reverse, List.map_map]
    have hcong : ∀ x ∈ toDigitsLE n n, (dVal ∘ dChar) x = id x := by
      intro x hx
      simp only [Function.comp_apply, id_eq]
      exact dVal_dChar x (toDigitsLE_lt n n x hx)
    rw [List.map_congr_left hcong, List.map_id]
    exact ofDigits_toDigits n n (le_refl n)

/-- The rendering of any natural is a valid numeric segment. -/
theorem validNum_renderNum (n : Nat) : validNum (renderNum n) = true := by
  by_cases hn : n = 0
  · subst hn; decide
  · have hne : toDigitsLE n n ≠ [] :=
      toDigitsLE_ne_nil n n (by omega) (le_refl n)
    have hall : ∀ c ∈ renderNum n, isDigitC c = true := by
      intro c hc
      unfold renderNum at hc
      rw [if_neg hn] at hc
      rw [List.mem_reverse, List.mem_map] at hc
      obtain ⟨d, hd, rfl⟩ := hc
      exact dChar_isDigit d (toDigitsLE_lt n n d hd)
    have hhead : (renderNum n).head? = some (dChar ((toDigitsLE n n).getLast hne)) := by
      unfold renderNum
      rw [if_neg hn, List.head?_reverse, List.getLast?_map,
        List.getLast?_eq_getLast _ hne]
      rfl
    have hlastd : (toDigitsLE n n).getLast hne ≠ 0 := by
      apply toDigitsLE_getLast n n (by omega) (le_refl n)
      exact List.getLast?_eq_getLast _ hne
    have hheadne : ∀ c, (renderNum n).head? = some c → c ≠ '0' := by
      intro c hc
      rw [hhead] at hc
      injection hc with hc
      rw [← hc]
      exact dChar_ne_zero _ (toDigitsLE_lt n n _ (List.getLast_mem hne)) hlastd
    cases hr : renderNum n with
    | nil =>
      exfalso
      apply hne
      have := congrArg List.length hr
      unfold renderNum at this
      rw [if_neg hn] at this
      simpa using this
    | cons c rest =>
      simp only [validNum, Bool.and_eq_true, Bool.or_eq_true, decide_eq_true_eq,
        List.all_eq_true]
      constructor
      · intro x hx
        exact hall x (by rw [hr]; exact hx)
      · left
        apply hheadne
        rw [hr]
        rfl

theorem compare_total_order_witness :
    lessThan { major := 1, minor := 2, patch := 3,
               pre := [cs ("alpha")], metadata := [], original := [] }
      { major := 2, minor := 0, patch := 0,
        pre := [cs ("rc"), cs ("2")], metadata := [cs ("m")], original := [] } :=
  (compare_total_order
    { major := 1, minor := 2, patch := 3,
      pre := [cs ("alpha")], metadata := [], original := [] }
    { major := 1, minor := 2, patch := 3,
      pre := [], metadata := [], original := [] }
    { major := 2, minor := 0, patch := 0,
      pre := [cs ("rc"), cs ("2")], metadata := [cs ("m")], original := [] }).2.2
    (by decide) (by decide)

theorem splitFirst_some (c : Char) :
    ∀ l a b : List Char, splitFirst c l = some (a, b) → l = a ++ c :: b := by
  intro l
  induction l with
  | nil => intro a b h; simp [splitFirst] at h
  | cons x xs ih =>
    intro a b h
    simp only [splitFirst] at h
    by_cases hx : x = c
    · rw [if_pos hx] at h
      injection h with h
      injection h with h1 h2
      subst h1; subst h2; subst hx
      rfl
    · rw [if_neg hx] at h
      cases hsp : splitFirst c xs with
      | none => rw [hsp] at h; simp at h
      | some p =>
        rw [hsp] at h
        simp only [Option.map] at h
        injection h with h
        have h1 : a = x :: p.1 := (congrArg Prod.fst h).symm
        have h2 : b = p.2 := (congrArg Prod.snd h).symm
        subst h1; subst h2
        have := ih p.1 p.2 (by rw [hsp])
        rw [List.cons_append, ← this]

theorem splitAll_ne_nil (sep : Char) : ∀ l : List Char, splitAll sep l ≠ [] := by
  intro l
  cases l with
  | nil => simp [splitAll]
  | cons x xs =>
    simp only [splitAll]
    cases splitAll sep xs with
    | nil => simp
    | cons h t =>
      by_cases hx : x = sep <;> simp [hx]

theorem joinSep_splitAll (sep : Char) : ∀ l : List Char,
    joinSep sep (splitAll sep l) = l := by
  intro l
  induction l with
  | nil => rfl
  | cons x xs ih =>
    cases hs : splitAll sep xs with
    | nil => exact absurd hs (splitAll_ne_nil sep xs)
    | cons h t =>
      rw [hs] at ih
      simp only [splitAll, hs]
      by_cases hx : x = sep
      · rw [if_pos hx]
        subst hx
        show x :: joinSep x (h :: t) = x :: xs
        rw [ih]
      · rw [if_neg hx]
        cases t with
        | nil =>
          show x :: h = x :: xs
          simp only [joinSep] at ih
          rw [ih]
        | cons q r =>
          show (x :: h) ++ sep :: joinSep sep (q :: r) = x :: xs
          rw [List.cons_append]
          have : h ++ sep :: joinSep sep (q :: r) = joinSep sep (h :: q :: r) := rfl
          rw [this, ih]

theorem cutAt_recombine (c : Char) (s : List Char) :
    (cutAt c s).1 ++ optCons c (cutAt c s).2 = s := by
  unfold cutAt
  cases hs : splitFirst c s with
  | none => simp [optCons]
  | some p =>
    obtain ⟨a, b⟩ := p
    simp only [optCons]
    exact (splitFirst_some c s a b hs).symm

theorem idsOf_tail (c : Char) (o : Option (List Char)) :
    (if (idsOf o).isEmpty then [] else c :: joinSep '.' (idsOf o)) = optCons c o := by
  cases o with
  | none => simp [idsOf, optCons]
  | some p =>
    have hne := splitAll_ne_nil '.' p
    simp only [idsOf, optCons]
    rw [if_neg (by simpa [List.isEmpty_iff] using hne)]
    rw [joinSep_splitAll]

theorem parseMMP_strict_render (mmp : List Char) (ma mi pa : Nat)
    (h : parseMMP false mmp = some (ma, mi, pa)) :
    renderNum ma ++ '.' :: renderNum mi ++ '.' :: renderNum pa = mmp := by
  unfold parseMMP at h
  cases h3 : splitAll '.' mmp with
  | nil => rw [h3] at h; simp at h
  | cons a t1 =>
    cases t1 with
    | nil => rw [h3] at h; simp at h
    | cons b t2 =>
      cases t2 with
      | nil => rw [h3] at h; simp at h
      | cons c t3 =>
        cases t3 with
        | cons d t4 => rw [h3] at h; simp at h
        | nil =>
          rw [h3] at h
          simp only [] at h
          by_cases hv : (validNum a && validNum b && validNum c) = true
          · rw [if_pos hv] at h
            injection h with h
            simp only [Bool.and_eq_true] at hv
            obtain ⟨⟨hva, hvb⟩, hvc⟩ := hv
            obtain ⟨hma, hmi, hpa⟩ : ma = parseNum a ∧ mi = parseNum b ∧ pa = parseNum c := by
              refine ⟨(congrArg Prod.fst h).symm, ?_, ?_⟩
              · exact (congrArg (fun t => t.2.1) h).symm
              · exact (congrArg (fun t => t.2.2) h).symm
            subst hma; subst hmi; subst hpa
            rw [renderNum_parseNum a hva, renderNum_parseNum b hvb, renderNum_parseNum c hvc]
            have hj := joinSep_splitAll '.' mmp
            rw [h3] at hj
            simp only [joinSep] at hj
            simpa [List.append_assoc] using hj
          · rw [if_neg hv] at h
            simp at h

/-- C2: for every string accepted by the strict parse, encoding the
resulting Version Value in canonical string form yields the input exactly:
canonical-encode after parse is the identity on accepted strict inputs. -/
theorem strict_roundtrip (s : List Char) (v : Version)
    (h : strictNewVersion s = some v) : versionString v = s := by
  unfold strictNewVersion parseBody at h
  cases hm : parseMMP false (cutAt '-' (cutAt '+' s).1).1 with
  | none => rw [hm] at h; simp at h
  | some t =>
    obtain ⟨ma, mi, pa⟩ := t
    rw [hm] at h
    simp only [] at h
    by_cases hok : (preOK (cutAt '-' (cutAt '+' s).1).2 && metaOK (cutAt '+' s).2) = true
    · rw [if_pos hok] at h
      injection h with h
      subst h
      simp only [versionString]
      rw [idsOf_tail '-' (cutAt '-' (cutAt '+' s).1).2, idsOf_tail '+' (cutAt '+' s).2]
      have hmmp := parseMMP_strict_render _ _ _ _ hm
      calc renderNum ma ++ '.' :: renderNum mi ++ '.' :: renderNum pa ++
            optCons '-' (cutAt '-' (cutAt '+' s).1).2 ++ optCons '+' (cutAt '+' s).2
          = (renderNum ma ++ '.' :: renderNum mi ++ '.' :: renderNum pa) ++
            optCons '-' (cutAt '-' (cutAt '+' s).1).2 ++ optCons '+' (cutAt '+' s).2 := by
            simp [List.append_assoc]
        _ = (cutAt '-' (cutAt '+' s).1).1 ++
            optCons '-' (cutAt '-' (cutAt '+' s).1).2 ++ optCons '+' (cutAt '+' s).2 := by
            rw [hmmp]
        _ = (cutAt '+' s).1 ++ optCons '+' (cutAt '+' s).2 := by
            rw [cutAt_recombine]
        _ = s := cutAt_recombine '+' s
    · rw [if_neg hok] at h
      simp at h

/-- Concrete instantiation of `strict_roundtrip`: the strict input
1.2.3-beta.1+b.2 round-trips, the parse hypothesis checked by evaluation. -/
theorem strict_roundtrip_witness :
    versionString { major := 1, minor := 2, patch := 3,
                    pre := [cs ("beta"), cs ("1")], metadata := [cs ("b"), cs ("2")],
                    original := cs ("1.2.3-beta.1+b.2") } = cs ("1.2.3-beta.1+b.2") :=
  strict_roundtrip (cs ("1.2.3-beta.1+b.2"))
    { major := 1, minor := 2, patch := 3,
      pre := [cs ("beta"), cs ("1")], metadata := [cs ("b"), cs ("2")],
      original := cs ("1.2.3-beta.1+b.2") } (by decide)

/-- C3 counterexample: the version parsed from 1.2.3-beta+meta maps under
increment_patch to canonical 1.2.3, not 1.2.4 as the claim states; with a
pre-release present the patch number is not incremented (pinned by TestInc
in src/version_test.go). -/
theorem incPatch_prerelease_cex :
    (newVersion (cs ("1.2.3-beta+meta"))).map (fun v => versionString v.incPatch) =
      some (cs ("1.2.3")) ∧ cs ("1.2.3") ≠ cs ("1.2.4") := by decide

/-- C3 (amended): increment_patch always clears pre-release and metadata
and keeps major and minor; it increments the patch number by one exactly
when the pre-release is empty, and keeps the patch number unchanged when a
pre-release is present. -/
theorem incPatch_amended (v : Version) :
    v.incPatch.pre = [] ∧ v.incPatch.metadata = [] ∧
    v.incPatch.major = v.major ∧ v.incPatch.minor = v.minor ∧
    (v.pre = [] → v.incPatch.patch = v.patch + 1) ∧
    (v.pre ≠ [] → v.incPatch.patch = v.patch) := by
  unfold Version.incPatch
  by_cases h : v.pre = []
  · simp [h]
  · simp [h, List.isEmpty_iff]

/-- Concrete instantiation of `incPatch_amended`: on a value with
pre-release beta the patch number stays 3. -/
theorem incPatch_amended_witness :
    ([cs ("beta")] : List (List Char)) ≠ [] ∧
      (Version.incPatch
        { major := 1, minor := 2, patch := 3, pre := [cs ("beta")],
          metadata := [cs ("m")], original := cs ("1.2.3-beta+m") }).patch = 3 :=
  ⟨by decide,
    (incPatch_amended
      { major := 1, minor := 2, patch := 3, pre := [cs ("beta")],
        metadata := [cs ("m")], original := cs ("1.2.3-beta+m") }).2.2.2.2.2 (by decide)⟩

/-- C4 counterexample: increment operations do not clear the original
text; the value parsed from v1.2.4 has, after increment_patch, original
text v1.2.5 while its canonical string form is 1.2.5, so a leading v
survives the increment (pinned by TestInc in src/version_test.go). -/
theorem inc_original_cex :
    (newVersion (cs ("v1.2.4"))).map
      (fun v => (v.incPatch.original, versionString v.incPatch)) =
      some (cs ("v1.2.5"), cs ("1.2.5")) ∧ cs ("v1.2.5") ≠ cs ("1.2.5") := by decide

/-- C4 (amended): increment_major, increment_minor and increment_patch set
the original text to the retained v marker of the old original followed by
the canonical string form of the result; only for inputs without a v
marker does the new original text equal the canonical form. -/
theorem inc_original_amended (v : Version) :
    v.incMajor.original = originalVPfx v ++ versionString v.incMajor ∧
    v.incMinor.original = originalVPfx v ++ versionString v.incMinor ∧
    v.incPatch.original = originalVPfx v ++ versionString v.incPatch := by
  refine ⟨rfl, rfl, ?_⟩
  unfold Version.incPatch
  by_cases h : v.pre = []
  · rw [if_pos (by simp [h])]
    rfl
  · rw [if_neg (by simpa [List.isEmpty_iff] using h)]
    rfl

theorem head_dropWhile (p : Char → Bool) :
    ∀ l : List Char, ∀ c, (l.dropWhile p).head? = some c → p c = false := by
  intro l
  induction l with
  | nil => intro c h; simp [List.dropWhile] at h
  | cons x xs ih =>
    intro c h
    by_cases hx : p x = true
    · rw [List.dropWhile_cons_of_pos hx] at h
      exact ih c h
    · rw [List.dropWhile_cons_of_neg hx] at h
      injection h with h
      subst h
      simpa using hx

theorem mem_takeWhile (p : Char → Bool) :
    ∀ l : List Char, ∀ c ∈ l.takeWhile p, p c = true := by
  intro l
  induction l with
  | nil => intro c h; simp [List.takeWhile] at h
  | cons x xs ih =>
    intro c h
    by_cases hx : p x = true
    · rw [List.takeWhile_cons_of_pos hx] at h
      rcases List.mem_cons.mp h with rfl | h
      · exact hx
      · exact ih c h
    · rw [List.takeWhile_cons_of_neg hx] at h
      simp at h

/-- C5 counterexample: extraction does not follow the trailing-digit-run
description: on the digit-free pre-release text rc the extracted prefix is
empty rather than the whole text, and on rc1a, which does not end in a
digit, a counter is still extracted from the inner digit run. -/
theorem extract_cex :
    extract (cs ("rc")) = ([], []) ∧ ([] : List Char) ≠ cs ("rc") ∧
      extract (cs ("rc1a")) = (cs ("rc"), cs ("1")) ∧ cs ("1") ≠ [] := by decide

/-- C5 (amended): the extraction step behaves as follows: when the
pre-release text holds no digit at all, both prefix and counter come back
empty (the regexp does not match, so the prefix is not the whole string);
otherwise the counter is the last maximal digit run of the text, the
prefix is everything before that run (so it ends in a non-digit when
non-empty, dots kept literally), and the characters after that run are
discarded. -/
theorem extract_amended (s : List Char) :
    ((∀ c ∈ s, isDigitC c = false) → extract s = ([], [])) ∧
    ((∃ c ∈ s, isDigitC c = true) →
      ∃ t, s = (extract s).1 ++ (extract s).2 ++ t ∧
        (extract s).2 ≠ [] ∧ (∀ c ∈ (extract s).2, isDigitC c = true) ∧
        (∀ c ∈ t, isDigitC c = false) ∧
        (∀ d, ((extract s).1).getLast? = some d → isDigitC d = false)) := by
  constructor
  · intro h
    unfold extract
    have : (s.reverse.dropWhile fun c => !isDigitC c) = [] := by
      rw [List.dropWhile_eq_nil_iff]
      intro x hx
      simp [h x (List.mem_reverse.mp hx)]
    simp [this]
  · intro h
    obtain ⟨c0, hc0, hd0⟩ := h
    have hne : (s.reverse.dropWhile fun c => !isDigitC c) ≠ [] := by
      intro hcon
      rw [List.dropWhile_eq_nil_iff] at hcon
      have := hcon c0 (List.mem_reverse.mpr hc0)
      simp [hd0] at this
    set aft := s.reverse.dropWhile fun c => !isDigitC c with haft
    have hx : extract s = ((aft.dropWhile isDigitC).reverse, (aft.takeWhile isDigitC).reverse) := by
      have hdef : extract s = if aft.isEmpty then ([], [])
          else ((aft.dropWhile isDigitC).reverse, (aft.takeWhile isDigitC).reverse) := rfl
      rw [hdef, if_neg (by simpa [List.isEmpty_iff] using hne)]
    have hx1 : (extract s).1 = (aft.dropWhile isDigitC).reverse := by rw [hx]
    have hx2 : (extract s).2 = (aft.takeWhile isDigitC).reverse := by rw [hx]
    refine ⟨(s.reverse.takeWhile fun c => !isDigitC c).reverse, ?_, ?_, ?_, ?_, ?_⟩
    · rw [hx1, hx2]
      have hs : s = ((s.reverse.takeWhile fun c => !isDigitC c) ++ aft).reverse := by
        rw [haft, List.takeWhile_append_dropWhile, List.reverse_reverse]
      conv_lhs => rw [hs]
      rw [List.reverse_append]
      have ha : aft = aft.takeWhile isDigitC ++ aft.dropWhile isDigitC :=
        (List.takeWhile_append_dropWhile _ _).symm
      conv_lhs => rw [ha]
      rw [List.reverse_append, List.append_assoc]
    · rw [hx2]
      obtain ⟨c1, rest, hc1⟩ := List.exists_cons_of_ne_nil hne
      have hd1 : isDigitC c1 = true := by
        have := head_dropWhile (fun c => !isDigitC c) s.reverse c1 (by rw [← haft, hc1]; rfl)
        simpa using this
      rw [hc1, List.takeWhile_cons_of_pos hd1]
      simp
    · rw [hx2]
      intro c hc
      rw [List.mem_reverse] at hc
      exact mem_takeWhile isDigitC aft c hc
    · intro c hc
      rw [List.mem_reverse] at hc
      have := mem_takeWhile (fun c => !isDigitC c) s.reverse c hc
      simpa using this
    · rw [hx1]
      intro d hd
      rw [List.getLast?_reverse] at hd
      exact head_dropWhile isDigitC aft d hd

/-- Concrete instantiation of `extract_amended`: its decomposition leg at
the pre-release text a1b2c, whose last digit run is 2. -/
theorem extract_amended_witness :
    (∃ c ∈ cs ("a1b2c"), isDigitC c = true) ∧
      (∃ t, cs ("a1b2c") = (extract (cs ("a1b2c"))).1 ++ (extract (cs ("a1b2c"))).2 ++ t ∧
        (extract (cs ("a1b2c"))).2 ≠ [] ∧
        (∀ c ∈ (extract (cs ("a1b2c"))).2, isDigitC c = true) ∧
        (∀ c ∈ t, isDigitC c = false) ∧
        (∀ d, ((extract (cs ("a1b2c"))).1).getLast? = some d → isDigitC d = false)) :=
  ⟨by decide, (extract_amended (cs ("a1b2c"))).2 (by decide)⟩

/-- C6: evaluation of the bump continue path at the failing input: the
pre-release rc holds no digit, the regexp does not match, the extracted
prefix is empty, and the bump therefore produces pre-release 0 — version
1.2.3-rc becomes 1.2.3-0 — while the claim and the command help text
promise rc0. -/
theorem bumpContinue_rc_eval :
    bumpContinueNewPre (cs ("rc")) = cs ("0") ∧
      (newVersion (cs ("1.2.3-rc"))).map
        (fun v => versionString (bumpPrerelContinue v).1) = some (cs ("1.2.3-0")) ∧
      cs ("1.2.3-0") ≠ cs ("1.2.3-rc0") := by decide

/-- C7: evaluation of the supplied-prefix bump path: with a counter
present it does behave as continue (rc3 with prefix rc gives rc4), but at
the failing input — pre-release rc, supplied prefix equal to the extracted
current prefix, which is empty since rc holds no digit — the new text
stays empty and the pre-release is cleared (1.2.3-rc becomes 1.2.3),
while the continue path on the same version yields 1.2.3-0: the two paths
disagree and no 0 is appended. -/
theorem bumpWithPfx_eval :
    bumpWithPfxNewPre (cs ("rc3")) (cs ("rc")) = cs ("rc4") ∧
      bumpWithPfxNewPre (cs ("rc")) [] = [] ∧
      (newVersion (cs ("1.2.3-rc"))).map
        (fun v => versionString (bumpPrerelWithPfx v []).1) = some (cs ("1.2.3")) ∧
      (newVersion (cs ("1.2.3-rc"))).map
        (fun v => versionString (bumpPrerelContinue v).1) = some (cs ("1.2.3-0")) ∧
      cs ("1.2.3") ≠ cs ("1.2.3-0") := by decide

theorem validPreIdErr_range (id : List Char) (e : SemverErr)
    (h : validPreIdErr id = some e) :
    e = SemverErr.invalidPrerel ∨ e = SemverErr.segmentStartsZero := by
  unfold validPreIdErr at h
  cases id with
  | nil =>
    injection h with h
    left
    exact h.symm
  | cons c rest =>
    simp only [] at h
    split_ifs at h
    · injection h with h
      right
      exact h.symm
    · injection h with h
      left
      exact h.symm

/-- C8: set_pre_release with a non-empty text violating the pre-release
identifier grammar returns the original value completely unchanged together
with the validation error, which is the invalid-pre-release error or its
distinct leading-zero sub-case (the empty text instead means clearing the
pre-release and succeeds). -/
theorem setPrerelease_invalid (v : Version) (t : List Char) (e : SemverErr)
    (hne : t ≠ []) (hv : validatePre t = some e) :
    v.setPrerelease t = (v, some e) ∧
      (e = SemverErr.invalidPrerel ∨ e = SemverErr.segmentStartsZero) := by
  constructor
  · unfold Version.setPrerelease
    rw [if_neg (by simpa [List.isEmpty_iff] using hne), hv]
  · unfold validatePre at hv
    obtain ⟨id, _, hid⟩ := List.exists_of_findSome?_eq_some hv
    exact validPreIdErr_range id e hid

/-- Concrete instantiation of `setPrerelease_invalid`: the text ** is
rejected and the value 1.2.3 comes back unchanged, hypotheses checked by
evaluation. -/
theorem setPrerelease_invalid_witness :
    (cs ("**") : List Char) ≠ [] ∧
      Version.setPrerelease
        { major := 1, minor := 2, patch := 3, pre := [], metadata := [],
          original := cs ("1.2.3") } (cs ("**")) =
      ({ major := 1, minor := 2, patch := 3, pre := [], metadata := [],
         original := cs ("1.2.3") }, some SemverErr.invalidPrerel) :=
  ⟨by decide,
    (setPrerelease_invalid
      { major := 1, minor := 2, patch := 3, pre := [], metadata := [],
        original := cs ("1.2.3") } (cs ("**")) SemverErr.invalidPrerel
      (by decide) (by decide)).1⟩

theorem validNum_all (l : List Char) (h : validNum l = true) :
    ∀ c ∈ l, isDigitC c = true := by
  cases l with
  | nil => simp [validNum] at h
  | cons c rest =>
    simp only [validNum, Bool.and_eq_true, List.all_eq_true] at h
    exact h.1

theorem splitFirst_none_of (c : Char) (l : List Char) (h : ∀ x ∈ l, x ≠ c) :
    splitFirst c l = none := by
  induction l with
  | nil => rfl
  | cons x xs ih =>
    simp only [splitFirst]
    rw [if_neg (h x (by simp)), ih (fun y hy => h y (by simp [hy]))]
    rfl

theorem splitAll_append_no_sep (sep : Char) (a rest : List Char)
    (h : ∀ x ∈ a, x ≠ sep) :
    splitAll sep (a ++ sep :: rest) = a :: splitAll sep rest := by
  induction a with
  | nil =>
    simp only [List.nil_append, splitAll]
    cases hs : splitAll sep rest with
    | nil => exact absurd hs (splitAll_ne_nil sep rest)
    | cons q t => simp
  | cons x xs ih =>
    have hx : x ≠ sep := h x (by simp)
    simp only [List.cons_append, splitAll, List.append_eq]
    rw [ih (fun y hy => h y (by simp [hy]))]
    simp only []
    rw [if_neg hx]

theorem renderNum_ne_nil (n : Nat) : renderNum n ≠ [] := by
  intro hcon
  have := validNum_renderNum n
  rw [hcon] at this
  simp [validNum] at this

theorem digit_ne_marks (c : Char) (h : isDigitC c = true) :
    c ≠ '+' ∧ c ≠ '-' ∧ c ≠ 'v' ∧ c ≠ 'V' ∧ c ≠ '.' := by
  refine ⟨?_, ?_, ?_, ?_, ?_⟩ <;> intro hc <;> subst hc <;> exact absurd h (by decide)

theorem parseBody_render (ash : Bool) (n : Nat) :
    parseBody ash (renderNum n ++ cs (".3.0")) =
      some { major := n, minor := 3, patch := 0, pre := [], metadata := [],
             original := renderNum n ++ cs (".3.0") } := by
  have hall := validNum_all (renderNum n) (validNum_renderNum n)
  have htail : cs (".3.0") = '.' :: '3' :: '.' :: '0' :: [] := rfl
  have hnomark : ∀ (m : Char), m = '+' ∨ m = '-' →
      ∀ x ∈ renderNum n ++ cs (".3.0"), x ≠ m := by
    intro m hm x hx
    rcases List.mem_append.mp hx with hx | hx
    · have hd := digit_ne_marks x (hall x hx)
      rcases hm with rfl | rfl
      · exact hd.1
      · exact hd.2.1
    · rw [htail] at hx
      rcases hm with rfl | rfl <;>
        (simp only [List.mem_cons, List.not_mem_nil, or_false] at hx;
         rcases hx with rfl | rfl | rfl | rfl <;> decide)
  have h1 : cutAt '+' (renderNum n ++ cs (".3.0")) = (renderNum n ++ cs (".3.0"), none) := by
    unfold cutAt
    rw [splitFirst_none_of _ _ (hnomark '+' (Or.inl rfl))]
  have h2 : cutAt '-' (renderNum n ++ cs (".3.0")) = (renderNum n ++ cs (".3.0"), none) := by
    unfold cutAt
    rw [splitFirst_none_of _ _ (hnomark '-' (Or.inr rfl))]
  have hsa : splitAll '.' (renderNum n ++ cs (".3.0")) =
      [renderNum n, ['3'], ['0']] := by
    rw [htail]
    rw [splitAll_append_no_sep '.' (renderNum n) ('3' :: '.' :: '0' :: [])
      (fun x hx => (digit_ne_marks x (hall x hx)).2.2.2.2)]
    rfl
  have hv3 : validNum ['3'] = true := by decide
  have hv0 : validNum ['0'] = true := by decide
  have hmmp : parseMMP ash (renderNum n ++ cs (".3.0")) = some (n, 3, 0) := by
    unfold parseMMP
    rw [hsa]
    simp only []
    rw [if_pos (by rw [validNum_renderNum n, hv3, hv0]; rfl)]
    rw [parseNum_renderNum n]
    rfl
  unfold parseBody
  rw [h1, h2]
  simp only []
  rw [hmmp]
  simp only [preOK, metaOK]
  rw [if_pos (show (true && true) = true from rfl)]
  rfl

/-- C10: both dialects accept numeric segments over the full unsigned
64-bit range, not just 32-bit, and the Major, Minor and Patch accessors
return the exact value: the three test inputs with segments above 2^31 - 1
parse to their exact triples, and for every n below 2^64 the decimal
rendering of n parses back, under both dialects, to a version with major
exactly n. -/
theorem parse_uint64_range :
    ((strictNewVersion (cs ("2147483648.3.0"))).map (fun v => (v.major, v.minor, v.patch)) =
        some (2147483648, 3, 0) ∧
      (strictNewVersion (cs ("1.2147483648.3"))).map (fun v => (v.major, v.minor, v.patch)) =
        some (1, 2147483648, 3) ∧
      (strictNewVersion (cs ("1.2.2147483648"))).map (fun v => (v.major, v.minor, v.patch)) =
        some (1, 2, 2147483648) ∧
      (newVersion (cs ("2147483648.3.0"))).map (fun v => (v.major, v.minor, v.patch)) =
        some (2147483648, 3, 0) ∧
      (newVersion (cs ("1.2147483648.3"))).map (fun v => (v.major, v.minor, v.patch)) =
        some (1, 2147483648, 3) ∧
      (newVersion (cs ("1.2.2147483648"))).map (fun v => (v.major, v.minor, v.patch)) =
        some (1, 2, 2147483648)) ∧
    (∀ n : Nat, n < 18446744073709551616 →
      (strictNewVersion (renderNum n ++ cs (".3.0"))).map (fun v => v.major) = some n ∧
      (newVersion (renderNum n ++ cs (".3.0"))).map (fun v => v.major) = some n) := by
  constructor
  · exact ⟨by decide, by decide, by decide, by decide, by decide, by decide⟩
  · intro n hn
    constructor
    · unfold strictNewVersion
      rw [parseBody_render false n]
      rfl
    · unfold newVersion
      obtain ⟨c, r0, hcr⟩ := List.exists_cons_of_ne_nil (renderNum_ne_nil n)
      have hcd : isDigitC c = true :=
        validNum_all (renderNum n) (validNum_renderNum n) c (by rw [hcr]; simp)
      have hw : renderNum n ++ cs (".3.0") = c :: (r0 ++ cs (".3.0")) := by
        rw [hcr]; rfl
      rw [hw]
      simp only []
      rw [if_neg (by
        have hd := digit_ne_marks c hcd
        simp [hd.2.2.1, hd.2.2.2.1])]
      rw [← hw, parseBody_render true n]
      rfl

/-- Concrete instantiation of `parse_uint64_range`: its range leg at
n = 2147483648, which lies above 2^31 - 1, hypothesis checked by
evaluation. -/
theorem parse_uint64_range_witness :
    (2147483648 : Nat) < 18446744073709551616 ∧
      (strictNewVersion (renderNum 2147483648 ++ cs (".3.0"))).map (fun v => v.major) =
        some 2147483648 :=
  ⟨by decide, (parse_uint64_range.2 2147483648 (by decide)).1⟩

example : strictNewVersion (cs ("1.2.3-beta.1+b.2")) =
    some { major := 1, minor := 2, patch := 3,
           pre := [cs ("beta"), cs ("1")], metadata := [cs ("b"), cs ("2")],
           original := cs ("1.2.3-beta.1+b.2") } := by decide

example : (strictNewVersion (cs ("v1.2.3"))).isNone := by decide

example : (strictNewVersion (cs ("1.2.3-alpha.01"))).isNone := by decide

example : (strictNewVersion (cs ("1.2.3-alpha.-1"))).isSome := by decide

example : (strictNewVersion (cs ("1.2.3+test.01"))).isSome := by decide

example : (strictNewVersion (cs ("1.2"))).isNone := by decide

example : (strictNewVersion (cs ("01.1.1"))).isNone := by decide

example : (strictNewVersion (cs ("9.8.7+meta+meta"))).isNone := by decide

example : (strictNewVersion (cs ("1.0.0-alpha..1"))).isNone := by decide

example : (newVersion (cs ("v1.2-beta.5"))).isSome := by decide

example : (newVersion (cs ("1"))).isSome := by decide

example : (newVersion (cs ("1.2.3.4"))).isNone := by decide

example : (newVersion (cs ("1.2.beta"))).isNone := by decide

example : (newVersion (cs ("20221209-update-renovatejson-v4"))).isSome := by decide

example : (newVersion (cs ("foo"))).isNone := by decide

example : (newVersion (cs ("v1.0"))).map versionString = some (cs ("1.0.0")) := by decide

example : (newVersion (cs ("1.2-5"))).map versionString = some (cs ("1.2.0-5")) := by decide

example : compareParsed (cs ("1.2.3")) (cs ("1.5.1")) = some (-1) := by decide

example : compareParsed (cs ("2.2.3")) (cs ("1.5.1")) = some 1 := by decide

example : compareParsed (cs ("3.2-beta")) (cs ("3.2-beta")) = some 0 := by decide

example : compareParsed (cs ("1.3")) (cs ("1.1.4")) = some 1 := by decide

example : compareParsed (cs ("4.2")) (cs ("4.2-beta")) = some 1 := by decide

example : compareParsed (cs ("4.2-alpha")) (cs ("4.2-beta")) = some (-1) := by decide

example : compareParsed (cs ("4.2-beta.2")) (cs ("4.2-beta.1")) = some 1 := by decide

example : compareParsed (cs ("4.2-beta2")) (cs ("4.2-beta1")) = some 1 := by decide

example : compareParsed (cs ("4.2-beta")) (cs ("4.2-beta.2")) = some (-1) := by decide

example : compareParsed (cs ("4.2-beta")) (cs ("4.2-beta.foo")) = some (-1) := by decide

example : compareParsed (cs ("1.2+bar")) (cs ("1.2+baz")) = some 0 := by decide

example : compareParsed (cs ("1.0.0-beta.4")) (cs ("1.0.0-beta.-2")) = some (-1) := by decide

example : compareParsed (cs ("1.0.0-beta.-2")) (cs ("1.0.0-beta.-3")) = some (-1) := by decide

example : compareParsed (cs ("7.43.0-SNAPSHOT.99")) (cs ("7.43.0-SNAPSHOT.103")) = some (-1) := by decide

example : compareParsed (cs ("7.43.0-SNAPSHOT.FOO")) (cs ("7.43.0-SNAPSHOT.103")) = some 1 := by decide

example : compareParsed (cs ("7.43.0-SNAPSHOT100")) (cs ("7.43.0-SNAPSHOT99")) = some 1 := by decide

example : compareParsed (cs ("7.43.0-SNAPSHOT99")) (cs ("7.43.0-SNAPSHOT100")) = some (-1) := by decide

example : (newVersion (cs ("1.2.3-beta+meta"))).map
    (fun v => (versionString v.incPatch, v.incPatch.original)) =
    some (cs ("1.2.3"), cs ("1.2.3")) := by decide

example : (newVersion (cs ("v1.2.4"))).map
    (fun v => (versionString v.incPatch, v.incPatch.original)) =
    some (cs ("1.2.5"), cs ("v1.2.5")) := by decide

example : (newVersion (cs ("v1.2.4-beta+meta"))).map
    (fun v => (versionString v.incMinor, v.incMinor.original)) =
    some (cs ("1.3.0"), cs ("v1.3.0")) := by decide

example : (newVersion (cs ("1.2.3-beta+meta"))).map
    (fun v => versionString v.incMajor) = some (cs ("2.0.0")) := by decide

example : (newVersion (cs ("1.2.3"))).map
    (fun v => ((v.setPrerelease (cs ("**"))).1, (v.setPrerelease (cs ("**"))).2)) =
    (newVersion (cs ("1.2.3"))).map (fun v => (v, some SemverErr.invalidPrerel)) := by decide

example : (newVersion (cs ("v1.2.4"))).map
    (fun v => (versionString (v.setPrerelease (cs ("beta"))).1,
               (v.setPrerelease (cs ("beta"))).1.original)) =
    some (cs ("1.2.4-beta"), cs ("v1.2.4-beta")) := by decide

example : validatePre (cs ("alpha.01")) = some .segmentStartsZero := by decide

example : validatePre (cs ("alpha.0-1")) = none := by decide

example : validateMeta (cs ("alpha.01")) = none := by decide

example : extract (cs ("rc3")) = (cs ("rc"), cs ("3")) := by decide

example : extract (cs ("alpha.1.2")) = (cs ("alpha.1."), cs ("2")) := by decide

example : extract (cs ("rc")) = ([], []) := by decide

example : extract (cs ("123")) = ([], cs ("123")) := by decide

example : extract (cs ("a1b2c")) = (cs ("a1b"), cs ("2")) := by decide

example : extract (cs ("rc1-with-hypen")) = (cs ("rc"), cs ("1")) := by decide

example : bumpContinueNewPre (cs ("rc3")) = cs ("rc4") := by decide

example : bumpContinueNewPre (cs ("rc")) = cs ("0") := by decide

example : bumpWithPfxNewPre (cs ("rc3")) (cs ("beta")) = cs ("beta0") := by decide

example : bumpWithPfxNewPre (cs ("rc3")) (cs ("rc")) = cs ("rc4") := by decide

example : bumpWithPfxNewPre (cs ("rc")) [] = [] := by decide

example : (newVersion (cs ("1.2.3-rc"))).map
    (fun v => versionString (bumpPrerelContinue v).1) = some (cs ("1.2.3-0")) := by decide

example : (newVersion (cs ("1.2.3-rc9"))).map
    (fun v => versionString (bumpPrerelContinue v).1) = some (cs ("1.2.3-rc10")) := by decide
